import Mathlib

/-!
Verification of the jhsiao.ipc stream-framing and polling layer.

Shallow embedding conventions:
* bytes are `Nat` values in `[0, 256)`; byte strings are `List Nat`;
* Python buffers (`bytearray` + `memoryview`) are modelled as `List Nat`,
  with in-place slice writes expressed as take/append/drop;
* a call to the underlying non-blocking `readinto` is modelled by its
  result: `none` for a would-block (Python `None`), `some []` for EOF
  (Python `0`), `some bs` for `bs` bytes read;
* exceptions are modelled with explicit result constructors.
-/

namespace Ipc

/-! ## Chunk format encoding (src/jhsiao/ipc/formats/stream/chunk.py)

`decodes = [Struct('>B'), Struct('>H'), Struct('>L'), Struct('>Q')]`:
the length-field width of size class `c`. -/

/-- `decodes[c].size`: byte width of the length field of size class `c`. -/
def sizeWidth : Nat → Nat
  | 0 => 1
  | 1 => 2
  | 2 => 4
  | _ => 8

/-- The `while i > decodes[current].size*8: current += 1` loop of
`bitlen_idx`, with fuel (the source relies on `i ≤ 64` to stay in range). -/
def bitlenAdvance : Nat → Nat → Nat → Nat
  | 0, _, current => current
  | fuel+1, i, current =>
    if i > sizeWidth current * 8 then bitlenAdvance fuel i (current+1) else current

/-- `bitlen_idx`: for each bit length `i ∈ [0, 65)`, the chosen size class.
Mirrors the accumulation loop in `chunk.py` (`current` carries over). -/
def bitlenIdx : List Nat :=
  ((List.range 65).foldl
    (fun (p : List Nat × Nat) i =>
      let c := bitlenAdvance 4 i p.2
      (p.1 ++ [c], c))
    ([], 0)).1

/-- Python `int.bit_length`, with structural fuel so that it computes by
kernel reduction; `bitLength_eq_size` identifies it with `Nat.size`. -/
def bitLengthAux : Nat → Nat → Nat
  | 0, _ => 0
  | fuel+1, n => if n = 0 then 0 else bitLengthAux fuel (n / 2) + 1

/-- Python `int.bit_length`. -/
def bitLength (n : Nat) : Nat := bitLengthAux n n

/-- `bitlen_idx[L.bit_length()]`: size class picked for payload length `L`. -/
def pickOf (L : Nat) : Nat := bitlenIdx.getD (bitLength L) 0

/-- Big-endian pack of `n` into `w` bytes (`struct.pack('>B'/'>H'/'>L'/'>Q')`).
Digit `i` (from the right) is `(n / 256^i) % 256`. -/
def bePack : Nat → Nat → List Nat
  | 0, _ => []
  | w+1, n => bePack w (n / 256) ++ [n % 256]

/-- Big-endian unpack (`struct.unpack`) of a byte list. -/
def beUnpack (bs : List Nat) : Nat := bs.foldl (fun acc b => acc * 256 + b) 0

/-- Header length for a message of payload length `L`: the size-class byte
plus the length field. -/
def headerLen (L : Nat) : Nat := 1 + sizeWidth (pickOf L)

/-- `encodes[pick].pack(pick, L)`: the header bytes written by
`BWriter.write` / queued by `QWriter.write`. -/
def chunkHeader (L : Nat) : List Nat :=
  pickOf L :: bePack (sizeWidth (pickOf L)) L

/-- The byte stream produced for one message by `BWriter.write`
(`f.write(header)` then `f.write(data)`), equally the concatenation of the
two entries `QWriter.write` appends to its queue. -/
def encodeMsg (m : List Nat) : List Nat := chunkHeader m.length ++ m

/-- The byte stream for a message sequence: each message encoded in order. -/
def encodeAll (ms : List (List Nat)) : List Nat := (ms.map encodeMsg).flatten

theorem bePack_length (w n : Nat) : (bePack w n).length = w := by
  induction w generalizing n with
  | zero => rfl
  | succ w ih => simp [bePack, ih]

theorem beUnpack_append_singleton (bs : List Nat) (b : Nat) :
    beUnpack (bs ++ [b]) = beUnpack bs * 256 + b := by
  simp [beUnpack, List.foldl_append]

theorem beUnpack_bePack (w n : Nat) (h : n < 2 ^ (8 * w)) :
    beUnpack (bePack w n) = n := by
  induction w generalizing n with
  | zero =>
    interval_cases n
    rfl
  | succ w ih =>
    have hdiv : n / 256 < 2 ^ (8 * w) := by
      have h256 : (256 : Nat) = 2 ^ 8 := by norm_num
      rw [Nat.div_lt_iff_lt_mul (by norm_num : 0 < 256)]
      calc n < 2 ^ (8 * (w + 1)) := h
        _ = 2 ^ (8 * w) * 256 := by ring
    rw [bePack, beUnpack_append_singleton, ih _ hdiv]
    rw [Nat.mul_comm]
    exact Nat.div_add_mod n 256

theorem bePack_lt_256 (w n : Nat) : ∀ b ∈ bePack w n, b < 256 := by
  induction w generalizing n with
  | zero => simp [bePack]
  | succ w ih =>
    intro b hb
    rw [bePack] at hb
    rcases List.mem_append.mp hb with h | h
    · exact ih _ _ h
    · simp only [List.mem_singleton] at h
      subst h
      exact Nat.mod_lt _ (by norm_num)

/-- Table facts for `bitlen_idx`, checked by evaluation over all 65 entries:
each entry is a valid size class whose width covers bit length `i`, and no
smaller class does. -/
theorem bitlenIdx_spec : ∀ i < 65,
    bitlenIdx.getD i 0 < 4 ∧ i ≤ 8 * sizeWidth (bitlenIdx.getD i 0) ∧
    ∀ j < bitlenIdx.getD i 0, 8 * sizeWidth j < i := by
  set_option maxRecDepth 4000 in decide

theorem size_step {n : Nat} (h : n ≠ 0) : Nat.size n = Nat.size (n / 2) + 1 := by
  have hb : Nat.bit n.bodd n.div2 ≠ 0 := by
    rw [Nat.bit_decomp]
    exact h
  conv_lhs => rw [← Nat.bit_decomp n]
  rw [Nat.size_bit hb, Nat.div2_val]

theorem bitLengthAux_eq (fuel : Nat) :
    ∀ n, n ≤ fuel → bitLengthAux fuel n = Nat.size n := by
  induction fuel with
  | zero =>
    intro n hn
    have : n = 0 := by omega
    subst this
    simp [bitLengthAux, Nat.size_zero]
  | succ f ih =>
    intro n hn
    by_cases h0 : n = 0
    · subst h0
      simp [bitLengthAux, Nat.size_zero]
    · rw [bitLengthAux, if_neg h0, ih (n / 2) (by
        have := Nat.div_lt_self (Nat.pos_of_ne_zero h0) (by norm_num : 1 < 2)
        omega), ← size_step h0]

theorem bitLength_eq_size (n : Nat) : bitLength n = Nat.size n :=
  bitLengthAux_eq n n (Nat.le_refl n)

theorem size_le_64 {L : Nat} (h : L < 2 ^ 64) : Nat.size L ≤ 64 :=
  Nat.size_le.mpr h

/-- `pickOf` selects a valid size class whose width can represent `L`. -/
theorem pickOf_spec {L : Nat} (h : L < 2 ^ 64) :
    pickOf L < 4 ∧ L < 2 ^ (8 * sizeWidth (pickOf L)) ∧
    ∀ j < pickOf L, 2 ^ (8 * sizeWidth j) ≤ L := by
  have hs : Nat.size L ≤ 64 := size_le_64 h
  have hlt : Nat.size L < 65 := Nat.lt_succ_of_le hs
  obtain ⟨h1, h2, h3⟩ := bitlenIdx_spec (Nat.size L) hlt
  rw [show pickOf L = bitlenIdx.getD (Nat.size L) 0 by
    rw [pickOf, bitLength_eq_size]]
  refine ⟨h1, ?_, ?_⟩
  · exact Nat.size_le.mp h2
  · intro j hj
    exact Nat.lt_size.mp (h3 j hj)

theorem pickOf_lt_4 {L : Nat} (h : L < 2 ^ 64) : pickOf L < 4 :=
  (pickOf_spec h).1

theorem lt_width_pow {L : Nat} (h : L < 2 ^ 64) :
    L < 2 ^ (8 * sizeWidth (pickOf L)) := (pickOf_spec h).2.1

/-- C10: for every payload length `L < 2^64` the chunk writers pick
`bitlen_idx[L.bit_length()]`, the smallest size class in the 1/2/4/8-byte
ladder whose big-endian width represents `L`, and emit exactly the
size-class byte followed by `L` big-endian in that width, then the payload. -/
theorem chunk_minimal_size_class (data : List Nat) (h : data.length < 2 ^ 64) :
    encodeMsg data =
      (pickOf data.length :: bePack (sizeWidth (pickOf data.length)) data.length) ++ data
    ∧ data.length < 2 ^ (8 * sizeWidth (pickOf data.length))
    ∧ (∀ j < pickOf data.length, 2 ^ (8 * sizeWidth j) ≤ data.length)
    ∧ beUnpack (bePack (sizeWidth (pickOf data.length)) data.length) = data.length
    ∧ (bePack (sizeWidth (pickOf data.length)) data.length).length
        = sizeWidth (pickOf data.length)
    ∧ ∀ b ∈ chunkHeader data.length, b < 256 := by
  refine ⟨rfl, lt_width_pow h, (pickOf_spec h).2.2,
    beUnpack_bePack _ _ (lt_width_pow h), bePack_length _ _, ?_⟩
  intro b hb
  rcases List.mem_cons.mp hb with h1 | h1
  · subst h1
    exact Nat.lt_of_lt_of_le (pickOf_lt_4 h) (by norm_num)
  · exact bePack_lt_256 _ _ _ h1

/-- Witness for C10 at the concrete payload `[5, 6, 7]`. -/
theorem chunk_minimal_size_class_witness :
    ([5, 6, 7] : List Nat).length < 2 ^ 64
    ∧ (encodeMsg [5, 6, 7] =
        (pickOf ([5, 6, 7] : List Nat).length
          :: bePack (sizeWidth (pickOf ([5, 6, 7] : List Nat).length))
              ([5, 6, 7] : List Nat).length) ++ [5, 6, 7]
      ∧ ([5, 6, 7] : List Nat).length
          < 2 ^ (8 * sizeWidth (pickOf ([5, 6, 7] : List Nat).length))
      ∧ (∀ j < pickOf ([5, 6, 7] : List Nat).length,
          2 ^ (8 * sizeWidth j) ≤ ([5, 6, 7] : List Nat).length)
      ∧ beUnpack (bePack (sizeWidth (pickOf ([5, 6, 7] : List Nat).length))
          ([5, 6, 7] : List Nat).length) = ([5, 6, 7] : List Nat).length
      ∧ (bePack (sizeWidth (pickOf ([5, 6, 7] : List Nat).length))
          ([5, 6, 7] : List Nat).length).length
          = sizeWidth (pickOf ([5, 6, 7] : List Nat).length)
      ∧ ∀ b ∈ chunkHeader ([5, 6, 7] : List Nat).length, b < 256) :=
  ⟨by decide, chunk_minimal_size_class [5, 6, 7] (by decide)⟩

/-! ## Chunk Reader (src/jhsiao/ipc/formats/stream/chunk.py, `Reader`)

State: `sizebuf`/`pos` become `buf = sizebuf[:pos]` (bytes beyond `pos` are
never read before being overwritten), `cap = len(sizebuf)`;
`partial`/`pview` become `part = some (total, got)` where `total` is
`len(self.partial)` and `got` the filled prefix (`pview` covers the rest);
`pre` is the header length recorded when entering partial mode. -/

/-- Result of `readinto1`: a returned int, a returned `None` (would block),
or an uncaught exception (the `IndexError` from `decodes[badbyte]`). -/
inductive RRes where
  | ok : Int → RRes
  | wouldblock : RRes
  | exn : RRes
  deriving Repr, DecidableEq

structure ChunkReader where
  cap : Nat
  buf : List Nat
  part : Option (Nat × List Nat)
  pre : Nat
  deriving Repr, DecidableEq

/-- A fresh `Reader` (`__init__`): `sizebuf = bytearray(8192)`, `pos = 0`,
`partial = None`, `pre = 0`. -/
def chunkInit : ChunkReader := ⟨8192, [], none, 0⟩

/-- The `while start < pos` parse loop of `Reader.readinto1`, operating on
`rem = view[start:pos]`; `start` is threaded only for the return value.
`s0` is the reader at entry (its fields are unchanged if the size-class
lookup raises `IndexError`). -/
def chunkParse (cap pre0 : Nat) (s0 : ChunkReader) (out : List (List Nat))
    (rem : List Nat) (start : Nat) : List (List Nat) × ChunkReader × RRes :=
  match rem with
  | [] => (out, ⟨cap, [], none, pre0⟩, .ok (Int.ofNat start))
  | b :: tl =>
    if b < 4 then
      if 1 + sizeWidth b > (b :: tl).length then
        (out, ⟨cap, b :: tl, none, pre0⟩, .ok (Int.ofNat start))
      else
        if 1 + sizeWidth b + beUnpack (tl.take (sizeWidth b)) ≤ (b :: tl).length then
          chunkParse cap pre0 s0
            (out ++ [(tl.drop (sizeWidth b)).take (beUnpack (tl.take (sizeWidth b)))])
            ((b :: tl).drop (1 + sizeWidth b + beUnpack (tl.take (sizeWidth b))))
            (start + (1 + sizeWidth b + beUnpack (tl.take (sizeWidth b))))
        else
          (out, ⟨cap, [],
            some (beUnpack (tl.take (sizeWidth b)), tl.drop (sizeWidth b)),
            1 + sizeWidth b⟩, .ok (Int.ofNat start))
    else
      (out, s0, .exn)
  termination_by rem.length
  decreasing_by
    simp only [List.length_drop, List.length_cons]
    omega

/-- `Reader.readinto1`: `rd` is the result of the single `_readinto` call
(`none` = would block, `some []` = EOF, `some bs` = bytes read). -/
def chunkReadinto1 (s : ChunkReader) (rd : Option (List Nat))
    (out : List (List Nat)) : List (List Nat) × ChunkReader × RRes :=
  match s.part with
  | none =>
    match rd with
    | none => (out, s, .wouldblock)
    | some [] => (out, s, .ok (-1))
    | some (b :: bs) => chunkParse s.cap s.pre s out (s.buf ++ (b :: bs)) 0
  | some (total, got) =>
    match rd with
    | none => (out, s, .wouldblock)
    | some [] => (out, s, .ok (-1))
    | some (b :: bs) =>
      let got' := got ++ (b :: bs)
      if got'.length < total then
        (out, { s with part := some (total, got') }, .ok 0)
      else
        (out ++ [got'], { s with part := none }, .ok (Int.ofNat (total + s.pre)))

/-- Length of the view passed to `_readinto`: `sizebuf[pos:]` in header
mode, `pview` (the unfilled part of `partial`) in partial mode. -/
def viewLen (s : ChunkReader) : Nat :=
  match s.part with
  | none => s.cap - s.buf.length
  | some (total, got) => total - got.length

/-- Drive `readinto1` over an input stream split into read increments.
`sched` bounds each read: call `i` reads `min (sched i) (viewLen, rest)`
bytes, modelling a partition of the stream into arbitrary increments
(the OS may return any positive amount up to the view size). -/
def chunkRun (s : ChunkReader) (input : List Nat) (sched : List Nat)
    (out : List (List Nat)) : List (List Nat) × ChunkReader × List Nat :=
  match sched with
  | [] => (out, s, input)
  | k :: sched' =>
    match input with
    | [] => (out, s, [])
    | _ =>
      match chunkReadinto1 s
          (some (input.take (min k (min (viewLen s) input.length)))) out with
      | (out', s', .ok _) =>
        chunkRun s' (input.drop (min k (min (viewLen s) input.length))) sched' out'
      | (out', s', _) =>
        (out', s', input.drop (min k (min (viewLen s) input.length)))

/-! ### Round-trip invariant and proof (C1) -/

/-- All payload lengths are representable (the format caps them at 8 bytes). -/
def WFmsgs (ms : List (List Nat)) : Prop := ∀ m ∈ ms, m.length < 2 ^ 64

/-- Reader-state invariant relative to the not-yet-delivered messages `ms`
and the not-yet-read stream bytes `inp`. Either the buffer holds a proper
prefix of the next message's header, or a partial payload is in flight. -/
inductive Good : ChunkReader → List (List Nat) → List Nat → Prop where
  | header (pre : Nat) (h : List Nat) (ms : List (List Nat)) (inp : List Nat)
      (hcat : h ++ inp = encodeAll ms)
      (hlen : ms = [] ∧ h = []
        ∨ ∃ m rest, ms = m :: rest ∧ h.length < headerLen m.length) :
      Good ⟨8192, h, none, pre⟩ ms inp
  | part (m : List Nat) (rest : List (List Nat)) (g : Nat) (inp : List Nat)
      (hg : g < m.length)
      (hinp : inp = m.drop g ++ encodeAll rest) :
      Good ⟨8192, [], some (m.length, m.take g), headerLen m.length⟩
        (m :: rest) inp

theorem encodeAll_nil : encodeAll [] = [] := rfl

theorem encodeAll_cons (m : List Nat) (rest : List (List Nat)) :
    encodeAll (m :: rest) = encodeMsg m ++ encodeAll rest := by
  simp [encodeAll]

theorem sizeWidth_pos (j : Nat) : 1 ≤ sizeWidth j := by
  match j with
  | 0 => decide
  | 1 => decide
  | 2 => decide
  | n+3 => exact Nat.le_of_lt (by norm_num : (1 : Nat) < 8)

theorem sizeWidth_le_8 (j : Nat) : sizeWidth j ≤ 8 := by
  match j with
  | 0 => decide
  | 1 => decide
  | 2 => decide
  | n+3 => exact Nat.le_refl 8

theorem headerLen_le_9 (L : Nat) : headerLen L ≤ 9 := by
  have := sizeWidth_le_8 (pickOf L)
  unfold headerLen
  omega

theorem two_le_headerLen (L : Nat) : 2 ≤ headerLen L := by
  have := sizeWidth_pos (pickOf L)
  unfold headerLen
  omega

theorem encodeMsg_length (m : List Nat) :
    (encodeMsg m).length = headerLen m.length + m.length := by
  simp [encodeMsg, chunkHeader, headerLen, bePack_length]
  omega

theorem headerLen_le_encodeMsg_length (m : List Nat) :
    headerLen m.length ≤ (encodeMsg m).length := by
  rw [encodeMsg_length]; omega



theorem chunkParse_spec (ms : List (List Nat)) :
    ∀ (d : Nat), WFmsgs ms →
    ∀ (out : List (List Nat)) (pre0 start : Nat) (s0 : ChunkReader),
    ∃ emitted ms' s' r,
      chunkParse 8192 pre0 s0 out ((encodeAll ms).take d) start
        = (out ++ emitted, s', RRes.ok r)
      ∧ ms = emitted ++ ms'
      ∧ Good s' ms' ((encodeAll ms).drop d) := by
  induction ms with
  | nil =>
    intro d _ out pre0 start s0
    refine ⟨[], [], ⟨8192, [], none, pre0⟩, Int.ofNat start, ?_, rfl, ?_⟩
    · simp [encodeAll_nil, chunkParse]
    · have hdrop : (encodeAll ([] : List (List Nat))).drop d = [] := by
        simp [encodeAll_nil]
      rw [hdrop]
      exact Good.header pre0 [] [] [] rfl (Or.inl ⟨rfl, rfl⟩)
  | cons m rest ih =>
    intro d hwf out pre0 start s0
    have hL : m.length < 2 ^ 64 := hwf m (List.mem_cons_self m rest)
    have hpick4 : pickOf m.length < 4 := pickOf_lt_4 hL
    have hLpow : m.length < 2 ^ (8 * sizeWidth (pickOf m.length)) := lt_width_pow hL
    have hw1 : 1 ≤ sizeWidth (pickOf m.length) := sizeWidth_pos _
    have hwfrest : WFmsgs rest := fun x hx => hwf x (List.mem_cons_of_mem _ hx)
    generalize hTdef : bePack (sizeWidth (pickOf m.length)) m.length ++ (m ++ encodeAll rest) = T
    have hstream : encodeAll (m :: rest) = pickOf m.length :: T := by
      rw [← hTdef]
      simp [encodeAll_cons, encodeMsg, chunkHeader]
    have hTlen : T.length
        = sizeWidth (pickOf m.length) + (m.length + (encodeAll rest).length) := by
      rw [← hTdef]; simp [bePack_length]
    rcases Nat.eq_zero_or_pos d with hd0 | hdpos
    · subst hd0
      refine ⟨[], m :: rest, ⟨8192, [], none, pre0⟩, Int.ofNat start, ?_, rfl, ?_⟩
      · simp [chunkParse]
      · rw [List.drop_zero]
        refine Good.header pre0 [] (m :: rest) _ rfl (Or.inr ⟨m, rest, rfl, ?_⟩)
        have := two_le_headerLen m.length
        simp only [List.length_nil]
        omega
    · obtain ⟨e, rfl⟩ : ∃ e, d = e + 1 := ⟨d - 1, by omega⟩
      have hrem : (encodeAll (m :: rest)).take (e + 1) = pickOf m.length :: T.take e := by
        rw [hstream, List.take_succ_cons]
      rw [hrem, chunkParse.eq_def]
      dsimp only
      rw [if_pos hpick4]
      rcases Nat.lt_or_ge e (sizeWidth (pickOf m.length)) with hew | hew
      · -- incomplete header: keep the bytes, report 0 parsed past `start`
        rw [if_pos (by simp only [List.length_cons, List.length_take, hTlen]; omega)]
        refine ⟨[], m :: rest, ⟨8192, pickOf m.length :: T.take e, none, pre0⟩,
          Int.ofNat start, by simp, rfl, ?_⟩
        have hcat : (pickOf m.length :: T.take e) ++ (encodeAll (m :: rest)).drop (e + 1)
            = encodeAll (m :: rest) := by
          rw [hstream, List.drop_succ_cons]
          simp [List.take_append_drop]
        exact Good.header pre0 _ _ _ hcat
          (Or.inr ⟨m, rest, rfl, by
            simp only [List.length_cons, List.length_take, hTlen, headerLen]
            omega⟩)
      · -- full header available
        have htakew : (T.take e).take (sizeWidth (pickOf m.length))
            = bePack (sizeWidth (pickOf m.length)) m.length := by
          rw [List.take_take, min_eq_left hew, ← hTdef,
            List.take_left' (bePack_length _ _)]
        have hbe : beUnpack ((T.take e).take (sizeWidth (pickOf m.length))) = m.length := by
          rw [htakew, beUnpack_bePack _ _ hLpow]
        rw [if_neg (by
          simp only [List.length_cons, List.length_take, hTlen]
          omega)]
        have hdropw : (T.take e).drop (sizeWidth (pickOf m.length))
            = (m ++ encodeAll rest).take (e - sizeWidth (pickOf m.length)) := by
          rw [List.drop_take, ← hTdef, List.drop_left' (bePack_length _ _)]
        rw [hbe]
        rcases Nat.lt_or_ge e (sizeWidth (pickOf m.length) + m.length) with hel | hel
        · -- payload longer than available bytes: enter partial mode
          rw [if_neg (by
            simp only [List.length_cons, List.length_take, hTlen]
            omega)]
          have hgot : (T.take e).drop (sizeWidth (pickOf m.length))
              = m.take (e - sizeWidth (pickOf m.length)) := by
            rw [hdropw, List.take_append_of_le_length (by omega)]
          rw [hgot]
          refine ⟨[], m :: rest,
            ⟨8192, [], some (m.length, m.take (e - sizeWidth (pickOf m.length))),
              1 + sizeWidth (pickOf m.length)⟩,
            Int.ofNat start, by simp, rfl, ?_⟩
          have hinp : (encodeAll (m :: rest)).drop (e + 1)
              = m.drop (e - sizeWidth (pickOf m.length)) ++ encodeAll rest := by
            rw [hstream, List.drop_succ_cons, ← hTdef]
            conv_lhs =>
              rw [show e = (bePack (sizeWidth (pickOf m.length)) m.length).length
                + (e - sizeWidth (pickOf m.length)) by rw [bePack_length]; omega]
            rw [List.drop_append, List.drop_append_of_le_length (by omega)]
          rw [hinp]
          have hpart := Good.part m rest (e - sizeWidth (pickOf m.length)) _
            (by omega) rfl
          have hhl : headerLen m.length = 1 + sizeWidth (pickOf m.length) := rfl
          rw [hhl] at hpart
          exact hpart
        · -- whole message contained: emit it and continue on the tail
          rw [if_pos (by
            simp only [List.length_cons, List.length_take, hTlen]
            omega)]
          have hemit : ((T.take e).drop (sizeWidth (pickOf m.length))).take m.length
              = m := by
            rw [hdropw, List.take_take, min_eq_left (by omega), List.take_left' rfl]
          have hdroprest : (pickOf m.length :: T.take e).drop
              (1 + sizeWidth (pickOf m.length) + m.length)
              = (encodeAll rest).take (e - (sizeWidth (pickOf m.length) + m.length)) := by
            rw [show 1 + sizeWidth (pickOf m.length) + m.length
                = (sizeWidth (pickOf m.length) + m.length) + 1 by omega,
              List.drop_succ_cons, List.drop_take, ← hTdef]
            rw [show sizeWidth (pickOf m.length) + m.length
                = (bePack (sizeWidth (pickOf m.length)) m.length).length + m.length by
                rw [bePack_length]]
            rw [List.drop_append, List.drop_left' rfl]
          have hdropstream : (encodeAll (m :: rest)).drop (e + 1)
              = (encodeAll rest).drop (e - (sizeWidth (pickOf m.length) + m.length)) := by
            rw [hstream, List.drop_succ_cons, ← hTdef]
            conv_lhs =>
              rw [show e = ((bePack (sizeWidth (pickOf m.length)) m.length).length
                + (m.length + (e - (sizeWidth (pickOf m.length) + m.length)))) by
                rw [bePack_length]; omega]
            rw [List.drop_append, List.drop_append]
          rw [hemit, hdroprest]
          obtain ⟨em', ms', s', r', heq, hms, hgood⟩ :=
            ih (e - (sizeWidth (pickOf m.length) + m.length)) hwfrest (out ++ [m]) pre0
              (start + (1 + sizeWidth (pickOf m.length) + m.length)) s0
          refine ⟨m :: em', ms', s', r', ?_, ?_, ?_⟩
          · rw [heq]
            simp
          · rw [hms]
            rfl
          · rw [hdropstream]
            exact hgood



theorem Good_nil_inp {s : ChunkReader} {ms : List (List Nat)}
    (hg : Good s ms []) : ms = [] := by
  cases hg with
  | header pre h ms inp hcat hhl =>
    rcases hhl with ⟨hms, _⟩ | ⟨m, rest, hms, hlt⟩
    · exact hms
    · exfalso
      subst hms
      rw [List.append_nil] at hcat
      have h1 : h.length = (encodeAll (m :: rest)).length := by rw [hcat]
      rw [encodeAll_cons, List.length_append, encodeMsg_length] at h1
      omega
  | part m rest g inp hg2 hinp =>
    exfalso
    have h1 := congrArg List.length hinp
    simp only [List.length_nil, List.length_append, List.length_drop] at h1
    omega

theorem chunkRun_spec (sched : List Nat) :
    (∀ x ∈ sched, 1 ≤ x) →
    ∀ (s : ChunkReader) (ms : List (List Nat)) (inp : List Nat)
      (out : List (List Nat)),
    WFmsgs ms → Good s ms inp → inp.length ≤ sched.length →
    ∃ s', chunkRun s inp sched out = (out ++ ms, s', []) := by
  induction sched with
  | nil =>
    intro _ s ms inp out _ hgood hlen
    have hinp : inp = [] := List.eq_nil_of_length_eq_zero (by
      simp only [List.length_nil] at hlen
      omega)
    subst hinp
    have hms := Good_nil_inp hgood
    subst hms
    exact ⟨s, by simp [chunkRun]⟩
  | cons k sched' ihs =>
    intro hk s ms inp out hwf hgood hlen
    have hk1 : 1 ≤ k := hk k (List.mem_cons_self _ _)
    have hk' : ∀ x ∈ sched', 1 ≤ x := fun x hx => hk x (List.mem_cons_of_mem _ hx)
    cases inp with
    | nil =>
      have hms := Good_nil_inp hgood
      subst hms
      exact ⟨s, by simp [chunkRun]⟩
    | cons i0 inp0 =>
      cases hgood with
      | header pre h ms inp hcat hhl =>
        have hhlen : h.length < 9 := by
          rcases hhl with ⟨_, hh⟩ | ⟨m, rest, hms, hlt⟩
          · subst hh; simp
          · have := headerLen_le_9 m.length
            omega
        have hview : viewLen ⟨8192, h, none, pre⟩ = 8192 - h.length := rfl
        have hn1 : 1 ≤ min k (min (viewLen ⟨8192, h, none, pre⟩)
            (i0 :: inp0).length) := by
          simp only [hview, List.length_cons]
          omega
        have hnlen : min k (min (viewLen ⟨8192, h, none, pre⟩)
            (i0 :: inp0).length) ≤ inp0.length + 1 := by
          simp only [hview, List.length_cons]
          omega
        obtain ⟨emitted, ms', s', r, heq, hdecomp, hgood'⟩ :=
          chunkParse_spec ms (h.length + min k (min (viewLen ⟨8192, h, none, pre⟩)
            (i0 :: inp0).length)) hwf out pre 0 ⟨8192, h, none, pre⟩
        have htake : (i0 :: inp0).take (min k (min (viewLen ⟨8192, h, none, pre⟩)
            (i0 :: inp0).length))
            = i0 :: inp0.take (min k (min (viewLen ⟨8192, h, none, pre⟩)
              (i0 :: inp0).length) - 1) := by
          conv_lhs =>
            rw [show min k (min (viewLen ⟨8192, h, none, pre⟩) (i0 :: inp0).length)
              = (min k (min (viewLen ⟨8192, h, none, pre⟩)
                (i0 :: inp0).length) - 1) + 1 by omega]
          exact List.take_succ_cons
        have harg : h ++ (i0 :: inp0.take (min k (min (viewLen ⟨8192, h, none, pre⟩)
            (i0 :: inp0).length) - 1))
            = (encodeAll ms).take (h.length + min k (min (viewLen ⟨8192, h, none, pre⟩)
              (i0 :: inp0).length)) := by
          rw [← hcat, List.take_append, htake]
        have hdropinp : (encodeAll ms).drop (h.length
            + min k (min (viewLen ⟨8192, h, none, pre⟩) (i0 :: inp0).length))
            = (i0 :: inp0).drop (min k (min (viewLen ⟨8192, h, none, pre⟩)
              (i0 :: inp0).length)) := by
          rw [← hcat, List.drop_append]
        have hwf' : WFmsgs ms' := fun x hx => hwf x (by
          rw [hdecomp]
          exact List.mem_append_right _ hx)
        obtain ⟨s'', hrun⟩ := ihs hk' s' ms'
          ((i0 :: inp0).drop (min k (min (viewLen ⟨8192, h, none, pre⟩)
            (i0 :: inp0).length))) (out ++ emitted) hwf'
          (by rw [← hdropinp]; exact hgood')
          (by
            simp only [List.length_drop, List.length_cons]
            simp only [List.length_cons] at hlen
            omega)
        refine ⟨s'', ?_⟩
        rw [chunkRun]
        case x_1 => exact fun hh => by cases hh
        rw [htake]
        dsimp only [chunkReadinto1]
        rw [harg, heq]
        dsimp only
        rw [hrun, hdecomp]
        simp [List.append_assoc]
      | part m rest g inp hg2 hinp =>
        have hglen : (m.take g).length = g := by
          rw [List.length_take, min_eq_left (le_of_lt hg2)]
        have hview : viewLen ⟨8192, [], some (m.length, m.take g), headerLen m.length⟩
            = m.length - g := by
          simp [viewLen, hglen]
        have hwfrest : WFmsgs rest := fun x hx => hwf x (List.mem_cons_of_mem _ hx)
        rw [chunkRun]
        case x_1 => exact fun hh => by cases hh
        set n := min k (min
          (viewLen ⟨8192, [], some (m.length, m.take g), headerLen m.length⟩)
          (i0 :: inp0).length) with hn
        have hn1 : 1 ≤ n := by
          rw [hn, hview]
          simp only [List.length_cons]
          omega
        have hnle : n ≤ m.length - g := by
          rw [hn, hview]
          omega
        have htaken : (i0 :: inp0).take n = i0 :: inp0.take (n - 1) := by
          conv_lhs => rw [show n = (n - 1) + 1 by omega]
          exact List.take_succ_cons
        have htake2 : (i0 :: inp0).take n = (m.drop g).take n := by
          rw [hinp, List.take_append_of_le_length (by
            rw [List.length_drop]
            omega)]
        have hgot : m.take g ++ (i0 :: inp0).take n = m.take (g + n) := by
          rw [htake2]
          exact (List.take_add m g n).symm
        have hgotlen : (m.take (g + n)).length = g + n := by
          rw [List.length_take, min_eq_left (by omega)]
        rw [htaken]
        dsimp only [chunkReadinto1]
        rw [← htaken, hgot, hgotlen]
        rcases Nat.lt_or_ge (g + n) m.length with hlt | hge
        · -- still partial
          rw [if_pos hlt]
          dsimp only
          have hdropinp : (i0 :: inp0).drop n = m.drop (g + n) ++ encodeAll rest := by
            rw [hinp, List.drop_append_of_le_length (by
              rw [List.length_drop]
              omega), List.drop_drop]
          obtain ⟨s'', hrun⟩ := ihs hk'
            ⟨8192, [], some (m.length, m.take (g + n)), headerLen m.length⟩
            (m :: rest) ((i0 :: inp0).drop n) out hwf
            (Good.part m rest (g + n) _ hlt hdropinp)
            (by
              simp only [List.length_drop, List.length_cons]
              simp only [List.length_cons] at hlen
              omega)
          exact ⟨s'', hrun⟩
        · -- message complete
          have heqlen : g + n = m.length := by omega
          rw [if_neg (by omega)]
          dsimp only
          rw [heqlen, List.take_length]
          have hdropinp : (i0 :: inp0).drop n = encodeAll rest := by
            rw [hinp, List.drop_append_of_le_length (by
              rw [List.length_drop]
              omega), List.drop_drop, heqlen, List.drop_length, List.nil_append]
          have hhl' : rest = [] ∧ ([] : List Nat) = []
              ∨ ∃ m2 rest2, rest = m2 :: rest2
                ∧ ([] : List Nat).length < headerLen m2.length := by
            cases rest with
            | nil => exact Or.inl ⟨rfl, rfl⟩
            | cons r0 rs =>
              refine Or.inr ⟨r0, rs, rfl, ?_⟩
              have := two_le_headerLen r0.length
              simp only [List.length_nil]
              omega
          obtain ⟨s'', hrun⟩ := ihs hk' ⟨8192, [], none, headerLen m.length⟩
            rest ((i0 :: inp0).drop n) (out ++ [m]) hwfrest
            (Good.header (headerLen m.length) [] rest _ (by
              rw [List.nil_append, hdropinp]) hhl')
            (by
              simp only [List.length_drop, List.length_cons]
              simp only [List.length_cons] at hlen
              omega)
          refine ⟨s'', ?_⟩
          rw [hrun]
          simp



/-- C1: any message sequence encoded with the chunk format (header byte,
big-endian length, payload) and fed to `Reader.readinto1` in arbitrary read
increments — one byte at a time included — is delivered to the output
container exactly, in order, byte for byte, with the stream fully consumed. -/
theorem chunk_roundtrip (msgs : List (List Nat)) (sched : List Nat)
    (hwf : ∀ m ∈ msgs, m.length < 2 ^ 64)
    (hsched : ∀ x ∈ sched, 1 ≤ x)
    (hcov : (encodeAll msgs).length ≤ sched.length) :
    ∃ s', chunkRun chunkInit (encodeAll msgs) sched [] = (msgs, s', []) := by
  have hhl : msgs = [] ∧ ([] : List Nat) = []
      ∨ ∃ m rest, msgs = m :: rest ∧ ([] : List Nat).length < headerLen m.length := by
    cases msgs with
    | nil => exact Or.inl ⟨rfl, rfl⟩
    | cons m rest =>
      refine Or.inr ⟨m, rest, rfl, ?_⟩
      have := two_le_headerLen m.length
      simp only [List.length_nil]
      omega
  have hgood : Good chunkInit msgs (encodeAll msgs) :=
    Good.header 0 [] msgs (encodeAll msgs) rfl hhl
  obtain ⟨s', h⟩ := chunkRun_spec sched hsched chunkInit msgs (encodeAll msgs) [] hwf
    hgood hcov
  exact ⟨s', by simpa using h⟩

/-- Witness for C1: Scenario A — `[b"hello", b"world", b"hello world"]`
fed one byte at a time yields exactly those three messages, in order. -/
theorem chunk_roundtrip_witness :
    (∀ m ∈ [[104, 101, 108, 108, 111], [119, 111, 114, 108, 100],
        [104, 101, 108, 108, 111, 32, 119, 111, 114, 108, 100]],
      List.length m < 2 ^ 64)
    ∧ (∀ x ∈ List.replicate 27 1, 1 ≤ x)
    ∧ (encodeAll [[104, 101, 108, 108, 111], [119, 111, 114, 108, 100],
        [104, 101, 108, 108, 111, 32, 119, 111, 114, 108, 100]]).length
        ≤ (List.replicate 27 1).length
    ∧ ∃ s', chunkRun chunkInit
        (encodeAll [[104, 101, 108, 108, 111], [119, 111, 114, 108, 100],
          [104, 101, 108, 108, 111, 32, 119, 111, 114, 108, 100]])
        (List.replicate 27 1) []
        = ([[104, 101, 108, 108, 111], [119, 111, 114, 108, 100],
            [104, 101, 108, 108, 111, 32, 119, 111, 114, 108, 100]], s', []) :=
  ⟨by decide, by decide, by decide,
    chunk_roundtrip _ _ (by decide) (by decide) (by decide)⟩




/-! ## Growable buffer (src/jhsiao/ipc/formats/stream/bases.py,
`BufferedReader`) and line framing (src/jhsiao/ipc/sockets/formats/line.py)

The reader buffer is `buf` (full allocated region, `len(buf)` = capacity)
with live window `[0, stop)`. -/

/-- `bytearray.ljust(target)`: pad with spaces (0x20) up to `target`;
never truncates. -/
def ljust (buf : List Nat) (target : Nat) : List Nat :=
  if buf.length < target then buf ++ List.replicate (target - buf.length) 32 else buf

/-- The `while L < target: L = int(L * factor)` loop of `_grow` at the
default factor 1.5 (`int(L * 1.5) = 3*L/2` exactly for sizes in range),
with fuel (the source loop terminates for `L ≥ 2`). -/
def growLoop : Nat → Nat → Nat → Nat
  | 0, L, _ => L
  | f+1, L, target => if L < target then growLoop f (3 * L / 2) target else L

/-- `BufferedReader._grow`: the new buffer size, `none` when the method
raises `ValueError` (`L == self.maxsize`). -/
def growSize (L maxsize constant : Nat) (tgt : Option Nat) : Option Nat :=
  if L = maxsize then none
  else
    some (
      match tgt with
      | none =>
        if maxsize ≠ 0 then min (max (3 * L / 2) (L + constant)) maxsize
        else max (3 * L / 2) (L + constant)
      | some t =>
        if t ≤ L then
          if maxsize ≠ 0 then min (max (3 * L / 2) (L + constant)) maxsize
          else max (3 * L / 2) (L + constant)
        else
          if maxsize ≠ 0 then min (max (growLoop t L t) (L + constant)) maxsize
          else max (growLoop t L t) (L + constant))

/-- `BufferedReader._grow` acting on the buffer: `ljust` to the new size. -/
def grow (buf : List Nat) (maxsize constant : Nat) (tgt : Option Nat) :
    Option (List Nat) :=
  (growSize buf.length maxsize constant tgt).map (ljust buf)

/-- In-place slice write `buf[i:i+len(bs)] = bs`. -/
def writeSlice (buf : List Nat) (i : Nat) (bs : List Nat) : List Nat :=
  buf.take i ++ bs ++ buf.drop (i + bs.length)

/-- `bytes.find(b'\x0a', start, stop)` scan: first index `≥ i` holding a
newline byte, scanning the listed bytes. -/
def findNlAux : List Nat → Nat → Option Nat
  | [], _ => none
  | b :: tl, i => if b = 10 then some i else findNlAux tl (i + 1)

/-- `self.buf.find(b'\x0a', start, stop)` (absolute index, `none` = -1). -/
def findNl (buf : List Nat) (start stop : Nat) : Option Nat :=
  findNlAux ((buf.take stop).drop start) start

/-- The `while 0 <= nl < stop` loop of `line.Reader.extract`: emit
`buf[start:nl+1]` for every newline found, threading the search position
(`fuel` bounds the iteration count; `stop + 1` always suffices). -/
def lineScanAux : Nat → List Nat → Nat → Nat → Nat → List (List Nat) →
    List (List Nat) × Nat
  | 0, _, _, _, sliceStart, out => (out, sliceStart)
  | fuel+1, buf, stop, searchFrom, sliceStart, out =>
    match findNl buf searchFrom stop with
    | some nl =>
      lineScanAux fuel buf stop (nl + 1) (nl + 1)
        (out ++ [(buf.take (nl + 1)).drop sliceStart])
    | none => (out, sliceStart)

/-- `line.Reader.extract`: scan for newlines from `newstart`, emit complete
lines, then either reset/compact the live window or grow a full buffer.
Returns `(out, buf, stop, parsed)`; `parsed = -1` models the caught
grow failure. -/
def lineExtract (buf : List Nat) (stop newstart maxsize : Nat)
    (out : List (List Nat)) : List (List Nat) × List Nat × Nat × Int :=
  match lineScanAux (stop + 1) buf stop newstart 0 out with
  | (out', start) =>
    if start ≠ 0 then
      if start = stop then (out', buf, 0, Int.ofNat start)
      else
        (out', writeSlice buf 0 ((buf.take stop).drop start), stop - start,
          Int.ofNat start)
    else
      if stop = buf.length then
        match grow buf maxsize 8192 none with
        | some nb => (out', nb, stop, Int.ofNat 0)
        | none => (out', buf, stop, -1)
      else (out', buf, stop, Int.ofNat 0)

structure LineReader where
  buf : List Nat
  stop : Nat
  maxsize : Nat
  deriving Repr, DecidableEq

/-- A fresh line `Reader` in binary mode: zero-filled buffer of the given
initial capacity (`io.DEFAULT_BUFFER_SIZE = 8192` by default), `stop = 0`. -/
def lineInit (initial maxsize : Nat) : LineReader :=
  ⟨List.replicate initial 0, 0, maxsize⟩

/-- `line.Reader.readinto1`: one underlying read (`rd`), then `extract`;
`some []` (EOF) flushes a non-empty residual as a final undelimited
message, and only an empty residual reports end-of-stream `-1`. -/
def lineReadinto1 (st : LineReader) (rd : Option (List Nat))
    (out : List (List Nat)) : List (List Nat) × LineReader × Option Int :=
  match rd with
  | none => (out, st, none)
  | some [] =>
    if st.stop ≠ 0 then
      (out ++ [st.buf.take st.stop], ⟨st.buf, 0, st.maxsize⟩,
        some (Int.ofNat st.stop))
    else
      (out, st, some (-1))
  | some (b :: bs) =>
    match lineExtract (writeSlice st.buf st.stop (b :: bs))
        (st.stop + (b :: bs).length) st.stop st.maxsize out with
    | (out', buf', stop', ret) => (out', ⟨buf', stop', st.maxsize⟩, some ret)

/-- `bases.BufferedReader.readinto1`, generic in the format's `extract`
(`extract buf stop newstart out = (out, buf, stop, parsed)`): one
underlying read, dispatch on its result. -/
def bufferedReadinto1
    (extract : List Nat → Nat → Nat → List (List Nat) →
      List (List Nat) × List Nat × Nat × Int)
    (buf : List Nat) (stop : Nat) (rd : Option (List Nat))
    (out : List (List Nat)) : List (List Nat) × List Nat × Nat × Option Int :=
  match rd with
  | none => (out, buf, stop, none)
  | some [] => (out, buf, stop, some (-1))
  | some (b :: bs) =>
    match extract (writeSlice buf stop (b :: bs)) (stop + (b :: bs).length)
        stop out with
    | (out', buf', stop', ret) => (out', buf', stop', some ret)



theorem ljust_take {buf : List Nat} {stop : Nat} (t : Nat) (h : stop ≤ buf.length) :
    (ljust buf t).take stop = buf.take stop := by
  unfold ljust
  split
  · exact List.take_append_of_le_length h
  · rfl

theorem grow_preserves {buf nb : List Nat} {maxsize constant : Nat}
    {tgt : Option Nat} {stop : Nat} (hstop : stop ≤ buf.length)
    (h : grow buf maxsize constant tgt = some nb) :
    nb.take stop = buf.take stop := by
  unfold grow at h
  cases hg : growSize buf.length maxsize constant tgt with
  | none => rw [hg] at h; cases h
  | some t =>
    rw [hg] at h
    simp only [Option.map_some'] at h
    rw [← Option.some_inj.mp h]
    exact ljust_take t hstop

theorem intOfNat_toNat (n : Nat) : (Int.ofNat n).toNat = n := rfl

theorem findNlAux_bound {l : List Nat} :
    ∀ {i j : Nat}, findNlAux l i = some j → i ≤ j ∧ j < i + l.length := by
  induction l with
  | nil => intro i j h; cases h
  | cons b tl ih =>
    intro i j h
    rw [findNlAux] at h
    split at h
    · cases h
      simp
    · obtain ⟨h1, h2⟩ := ih h
      simp only [List.length_cons]
      omega

theorem findNl_bound {buf : List Nat} {start stop nl : Nat}
    (h : findNl buf start stop = some nl) : start ≤ nl ∧ nl < stop := by
  obtain ⟨h1, h2⟩ := findNlAux_bound h
  rw [List.length_drop, List.length_take] at h2
  constructor
  · exact h1
  · rcases Nat.lt_or_ge start (min stop buf.length) with hc | hc
    · omega
    · omega

theorem lineScanAux_le (fuel : Nat) :
    ∀ (buf : List Nat) (stop searchFrom sliceStart : Nat) (out : List (List Nat)),
    sliceStart ≤ stop →
    (lineScanAux fuel buf stop searchFrom sliceStart out).2 ≤ stop := by
  induction fuel with
  | zero => intro buf stop sf ss out h; exact h
  | succ f ih =>
    intro buf stop sf ss out h
    rw [lineScanAux]
    cases hf : findNl buf sf stop with
    | none => exact h
    | some nl =>
      have := (findNl_bound hf).2
      exact ih buf stop (nl + 1) (nl + 1) _ (by omega)

/-- Live-window preservation of `lineExtract`: when it does not fail, the
new live window `[0, stop')` is exactly the unconsumed suffix of the old
live window (the bytes past the `parsed` boundary). -/
theorem lineExtract_window {buf : List Nat} {stop newstart maxsize : Nat}
    (out : List (List Nat)) (hstop : stop ≤ buf.length)
    (hok : 0 ≤ (lineExtract buf stop newstart maxsize out).2.2.2) :
    (lineExtract buf stop newstart maxsize out).2.1.take
        (lineExtract buf stop newstart maxsize out).2.2.1
      = (buf.take stop).drop (lineExtract buf stop newstart maxsize out).2.2.2.toNat := by
  have hle := lineScanAux_le (stop + 1) buf stop newstart 0 out (Nat.zero_le _)
  unfold lineExtract at hok ⊢
  cases hscan : lineScanAux (stop + 1) buf stop newstart 0 out with
  | mk out' start =>
  rw [hscan] at hok hle
  dsimp only at hok hle ⊢
  by_cases h0 : start ≠ 0
  · rw [if_pos h0] at hok ⊢
    by_cases hss : start = stop
    · rw [if_pos hss] at hok ⊢
      dsimp only at hok ⊢
      rw [List.take_zero, intOfNat_toNat,
        List.drop_eq_nil_of_le (by rw [List.length_take]; omega)]
    · rw [if_neg hss] at hok ⊢
      dsimp only at hok ⊢
      rw [intOfNat_toNat]
      have htl : ((buf.take stop).drop start).length = stop - start := by
        rw [List.length_drop, List.length_take]
        omega
      unfold writeSlice
      simp only [List.take_zero, List.nil_append]
      rw [List.take_append_of_le_length (by omega)]
      exact List.take_of_length_le (by omega)
  · rw [if_neg h0] at hok ⊢
    push_neg at h0
    subst h0
    by_cases hfull : stop = buf.length
    · rw [if_pos hfull] at hok ⊢
      cases hg : grow buf maxsize 8192 none with
      | none =>
        rw [hg] at hok
        dsimp only at hok
        exact absurd hok (by decide)
      | some nb =>
        rw [hg] at hok
        dsimp only at hok ⊢
        rw [intOfNat_toNat, List.drop_zero]
        exact grow_preserves hstop hg
    · rw [if_neg hfull] at hok ⊢
      dsimp only at hok ⊢
      rw [intOfNat_toNat, List.drop_zero]



/-- C3: Scenario B — the line reader (delimiter `\x0a`, included in emitted
messages) on `b"hello\nworld\npartial"` then end-of-stream yields exactly
`[b"hello\n", b"world\n", b"partial"]` in order: each delimiter found emits
one message ending with the delimiter, and EOF flushes the undelimited
residual as a final message. -/
theorem line_scenario :
    (let r1 := lineReadinto1 (lineInit 32 0)
      (some [104, 101, 108, 108, 111, 10, 119, 111, 114, 108, 100, 10,
        112, 97, 114, 116, 105, 97, 108]) []
     let r2 := lineReadinto1 r1.2.1 (some []) r1.1
     r1.1 = [[104, 101, 108, 108, 111, 10], [119, 111, 114, 108, 100, 10]]
     ∧ r1.2.1.stop = 7
     ∧ r1.2.2 = some 12
     ∧ r2.1 = [[104, 101, 108, 108, 111, 10], [119, 111, 114, 108, 100, 10],
         [112, 97, 114, 116, 105, 97, 108]]
     ∧ r2.2.1.stop = 0
     ∧ r2.2.2 = some 7) := by
  decide

/-- C2: buffer growth (`_grow`) and the compaction in `extract` never lose
or reorder live data: growth preserves the live window `[0, stop)` exactly,
a successful `extract` leaves as new live window exactly the unconsumed
suffix of the old one, and a message longer than the initial capacity
(here 4) is reconstructed byte-identical across the growth steps. -/
theorem buffer_growth_preserves (buf : List Nat) (stop maxsize constant : Nat)
    (tgt : Option Nat) (newstart : Nat) (out : List (List Nat))
    (hstop : stop ≤ buf.length) :
    (∀ nb, grow buf maxsize constant tgt = some nb → nb.take stop = buf.take stop)
    ∧ (0 ≤ (lineExtract buf stop newstart maxsize out).2.2.2 →
        (lineExtract buf stop newstart maxsize out).2.1.take
            (lineExtract buf stop newstart maxsize out).2.2.1
          = (buf.take stop).drop
              (lineExtract buf stop newstart maxsize out).2.2.2.toNat)
    ∧ (let r1 := lineReadinto1 (lineInit 4 16) (some [97, 98, 99, 100]) []
       let r2 := lineReadinto1 r1.2.1 (some [101, 102, 103, 104, 10]) r1.1
       r1.1 = [] ∧ 4 < r1.2.1.buf.length
       ∧ r2.1 = [[97, 98, 99, 100, 101, 102, 103, 104, 10]]) := by
  refine ⟨fun nb h => grow_preserves hstop h, fun hok => lineExtract_window out hstop hok, ?_⟩
  decide

/-- Witness for C2 at `buf = [9, 10]`, `stop = 1`. -/
theorem buffer_growth_preserves_witness :
    (1 ≤ ([9, 10] : List Nat).length)
    ∧ ((∀ nb, grow [9, 10] 0 0 none = some nb → nb.take 1 = ([9, 10] : List Nat).take 1)
      ∧ (0 ≤ (lineExtract [9, 10] 1 0 0 []).2.2.2 →
          (lineExtract [9, 10] 1 0 0 []).2.1.take (lineExtract [9, 10] 1 0 0 []).2.2.1
            = (([9, 10] : List Nat).take 1).drop
                (lineExtract [9, 10] 1 0 0 []).2.2.2.toNat)
      ∧ (let r1 := lineReadinto1 (lineInit 4 16) (some [97, 98, 99, 100]) []
         let r2 := lineReadinto1 r1.2.1 (some [101, 102, 103, 104, 10]) r1.1
         r1.1 = [] ∧ 4 < r1.2.1.buf.length
         ∧ r2.1 = [[97, 98, 99, 100, 101, 102, 103, 104, 10]])) :=
  ⟨by decide, buffer_growth_preserves [9, 10] 1 0 0 none 0 [] (by decide)⟩



/-- C4: when the single underlying read reports would-block (`None`),
`readinto1` returns `None`, emits nothing, and leaves every piece of reader
state (buffer, stop position, partial-message state) unchanged — for
`bases.BufferedReader.readinto1` under any `extract`, for the chunk
`Reader` in any state, and for the line `Reader` in any state; since the
state is returned unchanged, this holds on arbitrarily many calls in a
row. -/
theorem readinto1_wouldblock_noop
    (extract : List Nat → Nat → Nat → List (List Nat) →
      List (List Nat) × List Nat × Nat × Int)
    (buf : List Nat) (stop : Nat) (s : ChunkReader) (ls : LineReader)
    (out : List (List Nat)) :
    bufferedReadinto1 extract buf stop none out = (out, buf, stop, none)
    ∧ chunkReadinto1 s none out = (out, s, RRes.wouldblock)
    ∧ lineReadinto1 ls none out = (out, ls, none) := by
  refine ⟨rfl, ?_, rfl⟩
  cases hp : s.part with
  | none => simp [chunkReadinto1, hp]
  | some p => simp [chunkReadinto1, hp]


/-! ## Queued writer (src/jhsiao/ipc/formats/stream/bases.py, `QWriter`) -/

/-- Relevant errnos (src/jhsiao/ipc/errnos.py, POSIX values; on Linux
`EAGAIN == EWOULDBLOCK == 11`). -/
def EINTR : Nat := 4

def EAGAIN : Nat := 11

def EWOULDBLOCK : Nat := 11

/-- Observable effects of one `QWriter.flush1` call. -/
structure Flush1Out where
  q : List (List Nat)
  ret : Nat
  writeCalls : Nat
  flushedFile : Bool
  deriving Repr, DecidableEq

/-- `QWriter.flush1`: at most one `f.write` of the frontmost chunk.
`amtOf view` is the byte count the destination accepts for a write of
`view`. A partial write retains the remaining slice at the queue front; a
completed chunk is popped and `f.flush()` runs only if the queue is then
empty; an empty queue performs no syscall and returns 0. -/
def flush1 (q : List (List Nat)) (amtOf : List Nat → Nat) : Flush1Out :=
  match q with
  | [] => ⟨[], 0, 0, false⟩
  | view :: rest =>
    if (view.drop (amtOf view)).length ≠ 0 then
      ⟨view.drop (amtOf view) :: rest, amtOf view, 1, false⟩
    else
      ⟨rest, amtOf view, 1, rest.isEmpty⟩

/-- A destination that accepts exactly one byte per write call. -/
def oneByteFile (view : List Nat) : Nat := min 1 view.length

/-- Iterate `flush1` `k` times, collecting `(ret, writeCalls, flushed)`
per call and the final queue. -/
def iterFlush1 (amtOf : List Nat → Nat) :
    Nat → List (List Nat) → List (Nat × Nat × Bool) × List (List Nat)
  | 0, q => ([], q)
  | k+1, q =>
    (((flush1 q amtOf).ret, (flush1 q amtOf).writeCalls,
        (flush1 q amtOf).flushedFile)
        :: (iterFlush1 amtOf k (flush1 q amtOf).q).1,
      (iterFlush1 amtOf k (flush1 q amtOf).q).2)

/-- One `f.write` event inside `QWriter.flush`: a returned count, a
returned `None`, or a raised `EnvironmentError(errno)`. -/
inductive WRes where
  | ok (n : Nat)
  | wb
  | err (e : Nat)
  deriving Repr, DecidableEq

/-- `numflushed + amt or None` (Python `or` on the sum). -/
def orNone (n : Nat) : Option Nat := if n = 0 then none else some n

/-- Result of a `QWriter.flush` call: a normal return (`ret` value, final
queue, whether `f.flush()` ran), or an exception propagated to the caller
(errno and the queue at that point). -/
inductive FlushOut where
  | ret (v : Option Nat) (q : List (List Nat)) (flushed : Bool)
  | raised (e : Nat) (q : List (List Nat))
  deriving Repr, DecidableEq

/-- `QWriter.flush`, driven by the script of `f.write` outcomes. `amt` is
the progress into the frontmost chunk (0 at entry). Faithful to the
source: in the `except EnvironmentError` branch, a WOULDBLOCK errno
stores the remainder and returns; EINTR sets the dead local `chunk = 0`
and then falls through to the unconditional `raise`, so it propagates
like any other errno, with `q[0]` not updated. -/
def qflush : List (List Nat) → Nat → List WRes → Nat → FlushOut
  | [], _, _, numflushed => .ret (some numflushed) [] true
  | view :: rest, amt, script, numflushed =>
    if amt < view.length then
      match script with
      | [] => .raised 0 (view :: rest)
      | ev :: script' =>
        match ev with
        | .err e =>
          if e = EAGAIN ∨ e = EWOULDBLOCK then
            .ret (orNone (numflushed + amt)) (view.drop amt :: rest) false
          else
            .raised e (view :: rest)
        | .wb => .ret (orNone (numflushed + amt)) (view.drop amt :: rest) false
        | .ok n => qflush (view :: rest) (amt + n) script' numflushed
    else
      qflush rest 0 script (numflushed + view.length)
  termination_by q _ script _ => (script.length, q.length)
  decreasing_by
    · simp only [List.length_cons]
      omega
    · simp only [List.length_cons]
      omega

/-! ## Select-based poller (src/jhsiao/ipc/threaded/polling/select.py)

Registered items are identified by `Nat` handles; Python `set`s become
duplicate-free lists (one fixed iteration order — the claims proved below
do not depend on the order). -/

/-- What `SelectPoller.step` observes of one `readinto1` / `flush1` call:
a returned int, a returned `None`, a raised `EnvironmentError(errno)`, or
a raised non-EnvironmentError exception (e.g. `IndexError`). -/
inductive HRes where
  | ok (n : Int)
  | retNone
  | envErr (e : Nat)
  | exn
  deriving Repr, DecidableEq

/-- Why a `step` call terminated abnormally. -/
inductive StepAbort where
  | envError (e : Nat)
  | otherExn
  deriving Repr, DecidableEq

/-- Outcome of a service loop: the final accumulator, or the exception
that escaped. -/
inductive LoopRes (A : Type) where
  | ok (acc : A)
  | raised (abort : StepAbort)
  deriving Repr, DecidableEq

structure PollState where
  ritems : List Nat
  witems : List Nat
  reading : List Nat
  writing : List Nat
  bad : List Nat
  deriving Repr, DecidableEq

/-- `set.add`. -/
def addItem (s : List Nat) (x : Nat) : List Nat := if x ∈ s then s else s ++ [x]

/-- `set.update`. -/
def unionItems (s : List Nat) (xs : List Nat) : List Nat := xs.foldl addItem s

/-- `set.difference_update`. -/
def removeItems (s : List Nat) (xs : List Nat) : List Nat :=
  s.filter (fun y => !(xs.contains y))

/-- `set.discard`. -/
def discardItem (s : List Nat) (x : Nat) : List Nat :=
  s.filter (fun y => y != x)

/-- Accumulator of the `for item in reading` loop of `step`: the sets it
mutates, the oneshot `sync` list, and the log of items on which
`readinto1` was invoked. -/
structure ReadAcc where
  ritems : List Nat
  witems : List Nat
  writing : List Nat
  bad : List Nat
  sync : List Nat
  log : List Nat
  deriving Repr, DecidableEq

/-- The reading service loop of `SelectPoller.step` (lines 56-81): one
`readinto1` per item; would-block (`None`, `-2`, or EAGAIN/EWOULDBLOCK
raise) re-arms into `ritems` and syncs out of `reading`; `-1` reports the
item bad and drops its write interest; EINTR is swallowed (item stays in
`reading`); any other exception propagates. -/
def readLoop (readRes : Nat → HRes) : List Nat → ReadAcc → LoopRes ReadAcc
  | [], acc => .ok acc
  | i :: items, acc =>
    match readRes i with
    | .envErr e =>
      if e = EAGAIN ∨ e = EWOULDBLOCK then
        readLoop readRes items { acc with
          ritems := addItem acc.ritems i,
          sync := acc.sync ++ [i],
          log := acc.log ++ [i] }
      else if e = EINTR then
        readLoop readRes items { acc with log := acc.log ++ [i] }
      else .raised (.envError e)
    | .retNone =>
      readLoop readRes items { acc with
        ritems := addItem acc.ritems i,
        sync := acc.sync ++ [i],
        log := acc.log ++ [i] }
    | .ok n =>
      if n = -2 then
        readLoop readRes items { acc with
          ritems := addItem acc.ritems i,
          sync := acc.sync ++ [i],
          log := acc.log ++ [i] }
      else if n = -1 then
        readLoop readRes items { acc with
          bad := acc.bad ++ [i],
          sync := acc.sync ++ [i],
          witems := discardItem acc.witems i,
          writing := discardItem acc.writing i,
          log := acc.log ++ [i] }
      else
        readLoop readRes items { acc with log := acc.log ++ [i] }
    | .exn => .raised .otherExn

/-- Accumulator of the `for item in writing` loop. -/
structure WriteAcc where
  ritems : List Nat
  witems : List Nat
  reading : List Nat
  bad : List Nat
  sync : List Nat
  deriving Repr, DecidableEq

/-- The writing service loop of `SelectPoller.step` (lines 82-106): one
`flush1` per item; would-block (`None` or EAGAIN/EWOULDBLOCK raise)
re-arms into `witems` and syncs; `-1` reports bad and drops read
interest; a fully-drained writer (`not item`) syncs out; EINTR is
swallowed; any other exception propagates. -/
def writeLoop (writeRes : Nat → HRes) (hasPending : Nat → Bool) :
    List Nat → WriteAcc → LoopRes WriteAcc
  | [], acc => .ok acc
  | i :: items, acc =>
    match writeRes i with
    | .envErr e =>
      if e = EAGAIN ∨ e = EWOULDBLOCK then
        writeLoop writeRes hasPending items { acc with
          witems := addItem acc.witems i,
          sync := acc.sync ++ [i] }
      else if e = EINTR then
        writeLoop writeRes hasPending items acc
      else .raised (.envError e)
    | .retNone =>
      writeLoop writeRes hasPending items { acc with
        witems := addItem acc.witems i,
        sync := acc.sync ++ [i] }
    | .ok n =>
      if n = -1 then
        writeLoop writeRes hasPending items { acc with
          bad := acc.bad ++ [i],
          ritems := discardItem acc.ritems i,
          reading := discardItem acc.reading i,
          sync := acc.sync ++ [i] }
      else if hasPending i then
        writeLoop writeRes hasPending items acc
      else
        writeLoop writeRes hasPending items { acc with sync := acc.sync ++ [i] }
    | .exn => .raised .otherExn

/-- Outcome of one `step` call: the new poller state plus the log of
items serviced by `readinto1`, or the exception that escaped `step`. -/
inductive StepOut where
  | ok (st : PollState) (log : List Nat)
  | raised (abort : StepAbort)
  deriving Repr, DecidableEq

/-- One `SelectPoller.step` after `select.select` returned `(r, w)`:
fired write items move `witems → writing`, fired read items move
`ritems → reading` (oneshot emulation: removed from the waited-on sets
before being serviced), then the two service loops run. Returns the new
state and the log of items `readinto1` was called on, or the exception
that escaped `step`. -/
def pollStep (st : PollState) (r w : List Nat) (readRes writeRes : Nat → HRes)
    (hasPending : Nat → Bool) : StepOut :=
  match readLoop readRes (unionItems st.reading r)
      ⟨removeItems st.ritems r, removeItems st.witems w,
        unionItems st.writing w, st.bad, [], []⟩ with
  | .raised e => .raised e
  | .ok racc =>
    match writeLoop writeRes hasPending racc.writing
        ⟨racc.ritems, racc.witems,
          removeItems (unionItems st.reading r) racc.sync, racc.bad, []⟩ with
    | .raised e => .raised e
    | .ok wacc =>
      .ok ⟨wacc.ritems, wacc.witems, wacc.reading,
        removeItems racc.writing wacc.sync, wacc.bad⟩ racc.log

/-- `Reader.readinto1` as a consumer of the trace of underlying
`_readinto` results: the source performs exactly one such call per
invocation, so one trace entry is consumed. -/
def chunkReadinto1Trace (s : ChunkReader) (trace : List (Option (List Nat)))
    (out : List (List Nat)) :
    (List (List Nat) × ChunkReader × RRes) × List (Option (List Nat)) :=
  match trace with
  | [] => ((out, s, .wouldblock), [])
  | rd :: trace' => (chunkReadinto1 s rd out, trace')



/-- C7: against a destination accepting exactly one byte per write, each
`flush1` call on a queue fronted by an `n`-byte chunk performs exactly one
write syscall, returns 1, and keeps the remaining slice at the front;
after exactly `n` calls the chunk is popped, with the underlying
`f.flush()` invoked only on the call that empties the queue — so a 5-byte
message drains after exactly 5 calls, each reporting 1 byte. -/
theorem qwriter_single_syscall_drain (c : List Nat) (rest : List (List Nat))
    (h : c ≠ []) :
    (iterFlush1 oneByteFile c.length (c :: rest)).1
      = List.replicate (c.length - 1) (1, 1, false) ++ [(1, 1, rest.isEmpty)]
    ∧ (iterFlush1 oneByteFile c.length (c :: rest)).2 = rest := by
  induction c with
  | nil => exact absurd rfl h
  | cons x c' ih =>
    cases c' with
    | nil =>
      simp [iterFlush1, flush1, oneByteFile]
    | cons y c'' =>
      have hstep : flush1 ((x :: y :: c'') :: rest) oneByteFile
          = ⟨(y :: c'') :: rest, 1, 1, false⟩ := by
        simp [flush1, oneByteFile]
      obtain ⟨h1, h2⟩ := ih (by simp)
      have hlen : (x :: y :: c'').length = (y :: c'').length + 1 := rfl
      rw [hlen]
      rw [iterFlush1, hstep]
      constructor
      · dsimp only
        rw [h1]
        simp [List.replicate_succ]
      · dsimp only
        exact h2

/-- Witness for C7: Scenario C — a 5-byte message against the 1-byte
destination drains in exactly 5 calls, each `(ret, writes, flushed) =
(1, 1, ·)`, flushing the file only on the last. -/
theorem qwriter_single_syscall_drain_witness :
    ([1, 2, 3, 4, 5] : List Nat) ≠ []
    ∧ ((iterFlush1 oneByteFile ([1, 2, 3, 4, 5] : List Nat).length
          ([1, 2, 3, 4, 5] :: ([] : List (List Nat)))).1
        = List.replicate (([1, 2, 3, 4, 5] : List Nat).length - 1) (1, 1, false)
            ++ [(1, 1, ([] : List (List Nat)).isEmpty)]
      ∧ (iterFlush1 oneByteFile ([1, 2, 3, 4, 5] : List Nat).length
          ([1, 2, 3, 4, 5] :: ([] : List (List Nat)))).2 = []) :=
  ⟨by decide, qwriter_single_syscall_drain [1, 2, 3, 4, 5] [] (by decide)⟩

/-- C8 is false on the code: in `QWriter.flush`, a write raising
`EnvironmentError(EINTR)` is *not* retried — the handler assigns the dead
local `chunk = 0` and then reaches the unconditional `raise`, so the
exception propagates to the caller (queue left as it was), while
EAGAIN/EWOULDBLOCK correctly yield the would-block result `None`. -/
theorem qwriter_flush_eintr_raises :
    qflush [[1, 2, 3]] 0 [WRes.err EINTR] 0 = FlushOut.raised EINTR [[1, 2, 3]]
    ∧ qflush [[1, 2, 3]] 0 [WRes.err EAGAIN] 0
        = FlushOut.ret none [[1, 2, 3]] false
    ∧ qflush [[1, 2, 3]] 0 [WRes.err EWOULDBLOCK] 0
        = FlushOut.ret none [[1, 2, 3]] false
    ∧ qflush [[1, 2, 3]] 0 [WRes.ok 1, WRes.ok 1, WRes.ok 1] 0
        = FlushOut.ret (some 3) [] true := by
  refine ⟨?_, ?_, ?_, ?_⟩ <;>
    simp [qflush, EINTR, EAGAIN, EWOULDBLOCK, orNone]




/-- The results of `readinto1` the select `step` treats as would-block
(re-arm): returned `None`, returned `-2`, or raised EAGAIN/EWOULDBLOCK. -/
def readWouldBlock (h : HRes) : Prop :=
  h = .retNone ∨ h = .ok (-2) ∨ h = .envErr EAGAIN ∨ h = .envErr EWOULDBLOCK

/-- The results of `flush1` the select `step` treats as would-block. -/
def writeWouldBlock (h : HRes) : Prop :=
  h = .retNone ∨ h = .envErr EAGAIN ∨ h = .envErr EWOULDBLOCK

theorem mem_addItem {s : List Nat} {x y : Nat} :
    y ∈ addItem s x ↔ y ∈ s ∨ y = x := by
  unfold addItem
  split
  · rename_i h
    constructor
    · exact Or.inl
    · rintro (h1 | rfl)
      · exact h1
      · exact h
  · simp [List.mem_append]

theorem mem_removeItems {s xs : List Nat} {y : Nat} :
    y ∈ removeItems s xs ↔ y ∈ s ∧ y ∉ xs := by
  unfold removeItems
  simp [List.mem_filter]

theorem mem_discardItem {s : List Nat} {x y : Nat} :
    y ∈ discardItem s x ↔ y ∈ s ∧ y ≠ x := by
  unfold discardItem
  simp [List.mem_filter]

/-- What one pass of the read loop guarantees: an item in the final
waited-on read set was either waited on at entry or got re-armed after a
would-block; the waited-on write set only shrinks; `readinto1` was called
exactly once per serviced item, in order. -/
theorem readLoop_spec (readRes : Nat → HRes) :
    ∀ (items : List Nat) (acc racc : ReadAcc),
    readLoop readRes items acc = .ok racc →
    (∀ y, y ∈ racc.ritems →
      y ∈ acc.ritems ∨ (y ∈ items ∧ readWouldBlock (readRes y)))
    ∧ (∀ y, y ∈ racc.witems → y ∈ acc.witems)
    ∧ racc.log = acc.log ++ items := by
  intro items
  induction items with
  | nil =>
    intro acc racc h
    cases h
    exact ⟨fun y hy => Or.inl hy, fun y hy => hy, by simp⟩
  | cons i items ih =>
    intro acc racc h
    rw [readLoop] at h
    have step :
        ∀ acc' : ReadAcc,
        readLoop readRes items acc' = .ok racc →
        (∀ y, y ∈ acc'.ritems →
          y ∈ acc.ritems ∨ y = i ∧ readWouldBlock (readRes i)) →
        (∀ y, y ∈ acc'.witems → y ∈ acc.witems) →
        acc'.log = acc.log ++ [i] →
        (∀ y, y ∈ racc.ritems →
          y ∈ acc.ritems ∨ (y ∈ i :: items ∧ readWouldBlock (readRes y)))
        ∧ (∀ y, y ∈ racc.witems → y ∈ acc.witems)
        ∧ racc.log = acc.log ++ i :: items := by
      intro acc' hrec hr hw hl
      obtain ⟨h1, h2, h3⟩ := ih acc' racc hrec
      refine ⟨?_, ?_, ?_⟩
      · intro y hy
        rcases h1 y hy with hy1 | ⟨hy1, hy2⟩
        · rcases hr y hy1 with hy2 | ⟨rfl, hy3⟩
          · exact Or.inl hy2
          · exact Or.inr ⟨List.mem_cons_self _ _, hy3⟩
        · exact Or.inr ⟨List.mem_cons_of_mem _ hy1, hy2⟩
      · intro y hy
        exact hw y (h2 y hy)
      · rw [h3, hl, List.append_assoc]
        rfl
    cases hres : readRes i with
    | envErr e =>
      rw [hres] at h
      dsimp only at h
      by_cases hwb : e = EAGAIN ∨ e = EWOULDBLOCK
      · rw [if_pos hwb] at h
        refine step _ h ?_ (fun y hy => hy) rfl
        intro y hy
        rcases mem_addItem.mp hy with hy1 | rfl
        · exact Or.inl hy1
        · refine Or.inr ⟨rfl, ?_⟩
          rw [hres]
          rcases hwb with h' | h'
          · exact Or.inr (Or.inr (Or.inl (by rw [h'])))
          · exact Or.inr (Or.inr (Or.inr (by rw [h'])))
      · rw [if_neg hwb] at h
        by_cases hi : e = EINTR
        · rw [if_pos hi] at h
          exact step _ h (fun y hy => Or.inl hy) (fun y hy => hy) rfl
        · rw [if_neg hi] at h
          cases h
    | retNone =>
      rw [hres] at h
      dsimp only at h
      refine step _ h ?_ (fun y hy => hy) rfl
      intro y hy
      rcases mem_addItem.mp hy with hy1 | rfl
      · exact Or.inl hy1
      · exact Or.inr ⟨rfl, by rw [hres]; exact Or.inl rfl⟩
    | ok n =>
      rw [hres] at h
      dsimp only at h
      by_cases h2 : n = -2
      · rw [if_pos h2] at h
        refine step _ h ?_ (fun y hy => hy) rfl
        intro y hy
        rcases mem_addItem.mp hy with hy1 | rfl
        · exact Or.inl hy1
        · refine Or.inr ⟨rfl, ?_⟩
          rw [hres, h2]
          exact Or.inr (Or.inl rfl)
      · rw [if_neg h2] at h
        by_cases h1 : n = -1
        · rw [if_pos h1] at h
          refine step _ h (fun y hy => Or.inl hy) ?_ rfl
          intro y hy
          exact (mem_discardItem.mp hy).1
        · rw [if_neg h1] at h
          exact step _ h (fun y hy => Or.inl hy) (fun y hy => hy) rfl
    | exn =>
      rw [hres] at h
      dsimp only at h
      cases h

/-- What one pass of the write loop guarantees: an item in the final
waited-on write set was either waited on at entry or got re-armed after a
would-block; the waited-on read set only shrinks. -/
theorem writeLoop_spec (writeRes : Nat → HRes) (hasPending : Nat → Bool) :
    ∀ (items : List Nat) (acc wacc : WriteAcc),
    writeLoop writeRes hasPending items acc = .ok wacc →
    (∀ y, y ∈ wacc.witems →
      y ∈ acc.witems ∨ (y ∈ items ∧ writeWouldBlock (writeRes y)))
    ∧ (∀ y, y ∈ wacc.ritems → y ∈ acc.ritems) := by
  intro items
  induction items with
  | nil =>
    intro acc wacc h
    cases h
    exact ⟨fun y hy => Or.inl hy, fun y hy => hy⟩
  | cons i items ih =>
    intro acc wacc h
    rw [writeLoop] at h
    have step :
        ∀ acc' : WriteAcc,
        writeLoop writeRes hasPending items acc' = .ok wacc →
        (∀ y, y ∈ acc'.witems →
          y ∈ acc.witems ∨ y = i ∧ writeWouldBlock (writeRes i)) →
        (∀ y, y ∈ acc'.ritems → y ∈ acc.ritems) →
        (∀ y, y ∈ wacc.witems →
          y ∈ acc.witems ∨ (y ∈ i :: items ∧ writeWouldBlock (writeRes y)))
        ∧ (∀ y, y ∈ wacc.ritems → y ∈ acc.ritems) := by
      intro acc' hrec hr hw
      obtain ⟨h1, h2⟩ := ih acc' wacc hrec
      refine ⟨?_, ?_⟩
      · intro y hy
        rcases h1 y hy with hy1 | ⟨hy1, hy2⟩
        · rcases hr y hy1 with hy2 | ⟨rfl, hy3⟩
          · exact Or.inl hy2
          · exact Or.inr ⟨List.mem_cons_self _ _, hy3⟩
        · exact Or.inr ⟨List.mem_cons_of_mem _ hy1, hy2⟩
      · intro y hy
        exact hw y (h2 y hy)
    cases hres : writeRes i with
    | envErr e =>
      rw [hres] at h
      dsimp only at h
      by_cases hwb : e = EAGAIN ∨ e = EWOULDBLOCK
      · rw [if_pos hwb] at h
        refine step _ h ?_ (fun y hy => hy)
        intro y hy
        rcases mem_addItem.mp hy with hy1 | rfl
        · exact Or.inl hy1
        · refine Or.inr ⟨rfl, ?_⟩
          rw [hres]
          rcases hwb with h' | h'
          · exact Or.inr (Or.inl (by rw [h']))
          · exact Or.inr (Or.inr (by rw [h']))
      · rw [if_neg hwb] at h
        by_cases hi : e = EINTR
        · rw [if_pos hi] at h
          exact step _ h (fun y hy => Or.inl hy) (fun y hy => hy)
        · rw [if_neg hi] at h
          cases h
    | retNone =>
      rw [hres] at h
      dsimp only at h
      refine step _ h ?_ (fun y hy => hy)
      intro y hy
      rcases mem_addItem.mp hy with hy1 | rfl
      · exact Or.inl hy1
      · exact Or.inr ⟨rfl, by rw [hres]; exact Or.inl rfl⟩
    | ok n =>
      rw [hres] at h
      dsimp only at h
      by_cases h1 : n = -1
      · rw [if_pos h1] at h
        refine step _ h (fun y hy => Or.inl hy) ?_
        intro y hy
        exact (mem_discardItem.mp hy).1
      · rw [if_neg h1] at h
        by_cases hp : hasPending i
        · rw [if_pos hp] at h
          exact step _ h (fun y hy => Or.inl hy) (fun y hy => hy)
        · rw [if_neg hp] at h
          exact step _ h (fun y hy => Or.inl hy) (fun y hy => hy)
    | exn =>
      rw [hres] at h
      dsimp only at h
      cases h



/-- C5: oneshot emulation on the select backend. A handle returned by
`select` is removed from the waited-on read (write) set before being
serviced, and ends the step in the waited-on set only if its `readinto1`
(`flush1`) reported would-block: returned `None` or `-2`, or raised
EAGAIN/EWOULDBLOCK. Hence a handle that fired and made progress is not in
the waited-on set, so it cannot be reported ready again until re-armed. -/
theorem select_oneshot_rearm (st : PollState) (r w : List Nat)
    (readRes writeRes : Nat → HRes) (hasPending : Nat → Bool)
    (st' : PollState) (log : List Nat)
    (hstep : pollStep st r w readRes writeRes hasPending = StepOut.ok st' log) :
    (∀ i ∈ r, i ∈ st'.ritems → readWouldBlock (readRes i))
    ∧ (∀ i ∈ w, i ∈ st'.witems → writeWouldBlock (writeRes i)) := by
  unfold pollStep at hstep
  cases hr : readLoop readRes (unionItems st.reading r)
      ⟨removeItems st.ritems r, removeItems st.witems w,
        unionItems st.writing w, st.bad, [], []⟩ with
  | raised e =>
    rw [hr] at hstep
    simp at hstep
  | ok racc =>
    rw [hr] at hstep
    dsimp only at hstep
    cases hw : writeLoop writeRes hasPending racc.writing
        ⟨racc.ritems, racc.witems,
          removeItems (unionItems st.reading r) racc.sync, racc.bad, []⟩ with
    | raised e =>
      rw [hw] at hstep
      simp at hstep
    | ok wacc =>
      rw [hw] at hstep
      dsimp only at hstep
      cases hstep
      obtain ⟨hr1, hr2, _⟩ := readLoop_spec readRes _ _ _ hr
      obtain ⟨hw1, hw2⟩ := writeLoop_spec writeRes hasPending _ _ _ hw
      constructor
      · intro i hir hmem
        have h1 := hw2 i hmem
        rcases hr1 i h1 with h2 | ⟨_, h3⟩
        · exact absurd hir (mem_removeItems.mp h2).2
        · exact h3
      · intro i hiw hmem
        rcases hw1 i hmem with h2 | ⟨_, h3⟩
        · have h4 := hr2 i h2
          exact absurd hiw (mem_removeItems.mp h4).2
        · exact h3

/-- Witness for C5: handle 1 fires readable and would-blocks (re-armed);
handle 3 fires writable, drains and empties (not re-armed). -/
theorem select_oneshot_rearm_witness :
    pollStep ⟨[1, 2], [3], [], [], []⟩ [1] [3]
        (fun i => if i == 1 then HRes.retNone else HRes.ok 0)
        (fun _ => HRes.ok 0) (fun _ => false)
      = StepOut.ok ⟨[2, 1], [], [], [], []⟩ [1]
    ∧ ((∀ i ∈ [1],
          i ∈ (⟨[2, 1], [], [], [], []⟩ : PollState).ritems →
          readWouldBlock ((fun i => if i == 1 then HRes.retNone else HRes.ok 0) i))
      ∧ (∀ i ∈ [3],
          i ∈ (⟨[2, 1], [], [], [], []⟩ : PollState).witems →
          writeWouldBlock ((fun _ => HRes.ok 0) i))) :=
  ⟨by decide,
    select_oneshot_rearm ⟨[1, 2], [3], [], [], []⟩ [1] [3]
      (fun i => if i == 1 then HRes.retNone else HRes.ok 0)
      (fun _ => HRes.ok 0) (fun _ => false)
      ⟨[2, 1], [], [], [], []⟩ [1] (by decide)⟩

/-- C6: fairness bound. In one select `step`, `readinto1` is invoked once
per handle in the serviced reading set (the log is that set, so with no
duplicates each handle is called at most once), and the chunk
`Reader.readinto1` consumes exactly one underlying-read event per
invocation — so a step performs at most one read syscall per handle, for
any number of ready handles with any backlog. -/
theorem select_fairness (st : PollState) (r w : List Nat)
    (readRes writeRes : Nat → HRes) (hasPending : Nat → Bool)
    (st' : PollState) (log : List Nat)
    (hstep : pollStep st r w readRes writeRes hasPending = StepOut.ok st' log)
    (hnodup : (unionItems st.reading r).Nodup) :
    (∀ i, log.count i ≤ 1)
    ∧ (∀ (s : ChunkReader) (rd : Option (List Nat))
        (tr : List (Option (List Nat))) (out : List (List Nat)),
        (chunkReadinto1Trace s (rd :: tr) out).2 = tr
        ∧ (chunkReadinto1Trace s (rd :: tr) out).1 = chunkReadinto1 s rd out) := by
  refine ⟨?_, fun s rd tr out => ⟨rfl, rfl⟩⟩
  unfold pollStep at hstep
  cases hr : readLoop readRes (unionItems st.reading r)
      ⟨removeItems st.ritems r, removeItems st.witems w,
        unionItems st.writing w, st.bad, [], []⟩ with
  | raised e =>
    rw [hr] at hstep
    simp at hstep
  | ok racc =>
    rw [hr] at hstep
    dsimp only at hstep
    cases hw : writeLoop writeRes hasPending racc.writing
        ⟨racc.ritems, racc.witems,
          removeItems (unionItems st.reading r) racc.sync, racc.bad, []⟩ with
    | raised e =>
      rw [hw] at hstep
      simp at hstep
    | ok wacc =>
      rw [hw] at hstep
      dsimp only at hstep
      cases hstep
      obtain ⟨_, _, hlog⟩ := readLoop_spec readRes _ _ _ hr
      intro i
      rw [hlog]
      simp only [List.nil_append]
      exact List.nodup_iff_count_le_one.mp hnodup i

/-- Witness for C6 at the C5 witness configuration. -/
theorem select_fairness_witness :
    pollStep ⟨[1, 2], [3], [], [], []⟩ [1] [3]
        (fun i => if i == 1 then HRes.retNone else HRes.ok 0)
        (fun _ => HRes.ok 0) (fun _ => false)
      = StepOut.ok ⟨[2, 1], [], [], [], []⟩ [1]
    ∧ (unionItems ([] : List Nat) [1]).Nodup
    ∧ ((∀ i, ([1] : List Nat).count i ≤ 1)
      ∧ (∀ (s : ChunkReader) (rd : Option (List Nat))
          (tr : List (Option (List Nat))) (out : List (List Nat)),
          (chunkReadinto1Trace s (rd :: tr) out).2 = tr
          ∧ (chunkReadinto1Trace s (rd :: tr) out).1 = chunkReadinto1 s rd out)) :=
  ⟨by decide, by decide,
    select_fairness ⟨[1, 2], [3], [], [], []⟩ [1] [3]
      (fun i => if i == 1 then HRes.retNone else HRes.ok 0)
      (fun _ => HRes.ok 0) (fun _ => false)
      ⟨[2, 1], [], [], [], []⟩ [1] (by decide) (by decide)⟩

/-- C9 is false on the code: a size-class byte outside 0..3 makes
`decodes[...]` raise `IndexError`, which `readinto1` does not turn into
the error return `-1`; `SelectPoller.step` catches only
`EnvironmentError`, so the exception escapes `step` — the reactor's step
terminates with no state produced, instead of evicting just the offending
handle (contrast: the in-band error return `-1` does evict the handle
into `bad` and the step completes). -/
theorem protocol_violation_kills_step :
    chunkReadinto1 chunkInit (some [4]) [] = ([], chunkInit, RRes.exn)
    ∧ pollStep ⟨[7], [], [], [], []⟩ [7] [] (fun _ => HRes.exn)
        (fun _ => HRes.ok 0) (fun _ => false) = StepOut.raised StepAbort.otherExn
    ∧ pollStep ⟨[7], [], [], [], []⟩ [7] [] (fun _ => HRes.ok (-1))
        (fun _ => HRes.ok 0) (fun _ => false)
        = StepOut.ok ⟨[], [], [], [], [7]⟩ [7] := by
  refine ⟨?_, by decide, by decide⟩
  simp [chunkReadinto1, chunkInit, chunkParse]


end Ipc
